import Mathlib

/-!
Verification of a single-threaded TCP echo server (select-based event loop).

The development shallowly embeds `src/main.c`:

* `WriteBuffer` models the C struct: the C fields are `data[MAX_PENDING_WRITES]`,
  `size` and `offset`.  Here `data : List Nat` is the staged region
  `data[0..size)` (so C's `size` is `data.length`), and `offset` counts the
  staged bytes already transmitted.
* Kernel interactions (`send`, `recv`, `accept`, `select`) are modelled by
  oracle values: each oracle entry is one syscall return.
* `fd_set` bitmaps become `Finset Int`; `FD_SET` is `insert`, `FD_CLR` is
  `erase`, `FD_ISSET` is membership.
* The OS side effect `close(fd)` is recorded in a ghost log `closedLog`.
-/

/-- C macro `MAX_PENDING_WRITES` (write-buffer capacity `C_w`). -/
def MAX_PENDING_WRITES : Nat := 8192

/-- C macro `BUFFER_SIZE` (recv stack-buffer capacity `C_r`). -/
def BUFFER_SIZE : Nat := 4096

/-- C macro `FD_SETSIZE` as used for the client slot table. -/
def FD_SETSIZE : Nat := 1024

/-- The C struct `WriteBuffer`: `data` is the staged byte region
`data[0..size)` (hence C's `size` field is `data.length`), `offset` the
number of staged bytes already sent. -/
structure WriteBuffer where
  data : List Nat
  offset : Nat
deriving DecidableEq

/-- The staged-but-unsent bytes `data[offset..size)` of a write buffer. -/
def wb_pending (b : WriteBuffer) : List Nat := b.data.drop b.offset

/-- C `init_write_buffer`: reset `size` and `offset` to zero. -/
def init_write_buffer : WriteBuffer := ⟨[], 0⟩

/-- C `write_buffer_empty`: `offset >= size`. -/
def write_buffer_empty (b : WriteBuffer) : Bool := b.data.length ≤ b.offset

/-- C `write_buffer_append`.  Mirrors the source order exactly: first the
capacity check `size + len > MAX_PENDING_WRITES` (against the pre-reset
`size`), then the consumed-buffer reset (`offset >= size`), then the copy.
`none` models the C function returning `false` (BufferFull). -/
def write_buffer_append (buf : WriteBuffer) (d : List Nat) : Option WriteBuffer :=
  if MAX_PENDING_WRITES < buf.data.length + d.length then
    none
  else
    let b := if buf.data.length ≤ buf.offset then init_write_buffer else buf
    some ⟨b.data ++ d, b.offset⟩

/-- One `send(2)` return, as seen by `write_buffer_flush`: `ok n` is a
successful transmission of `min n remaining` bytes, `wouldblock` is
`EAGAIN`/`EWOULDBLOCK`, `err` any other errno. -/
inductive SendRes where
  | ok (n : Nat)
  | wouldblock
  | err
deriving DecidableEq

/-- C `write_buffer_flush`.  The `while (offset < size)` loop is driven by the
send oracle `os`; each consumed entry is one `send` call.  Returns the updated
buffer, the bytes transmitted by this flush, and the C result code: `0` all
sent, `1` more data remains, `-1` error.  An exhausted oracle with data still
pending behaves like `wouldblock` (the kernel gave no further answers). -/
def write_buffer_flush : WriteBuffer → List SendRes → WriteBuffer × List Nat × Int
  | buf, [] =>
    if buf.offset < buf.data.length then (buf, [], 1)
    else (init_write_buffer, [], 0)
  | buf, o :: rest =>
    if buf.offset < buf.data.length then
      match o with
      | SendRes.ok n =>
          let k := min n (buf.data.length - buf.offset)
          let sent := (buf.data.drop buf.offset).take k
          let out := write_buffer_flush ⟨buf.data, buf.offset + k⟩ rest
          (out.1, sent ++ out.2.1, out.2.2)
      | SendRes.wouldblock => (buf, [], 1)
      | SendRes.err => (buf, [], -1)
    else (init_write_buffer, [], 0)

/-- The C struct `Client`: socket handle (`-1` = empty slot) plus the
per-connection write buffer. -/
structure Client where
  fd : Int
  write_buf : WriteBuffer
deriving DecidableEq

/-- An empty client slot, as initialised by `run_server_with_select`. -/
def emptyClient : Client := ⟨-1, init_write_buffer⟩

/-- Global state of `run_server_with_select`: the slot table, the two master
`fd_set`s, `max_fd`, the listener fd, and a ghost log of every fd passed to
`close(2)`. -/
structure ServerState where
  server_fd : Int
  clients : List Client
  master_read_set : Finset Int
  master_write_set : Finset Int
  max_fd : Int
  closedLog : List Int
deriving DecidableEq

/-- The slot at index `i` (out-of-range indices read as an empty slot). -/
def slot (s : ServerState) (i : Nat) : Client := s.clients.getD i emptyClient

/-- C `close_client`: no-op on an empty slot; otherwise `close(fd)`,
`FD_CLR` from both master sets, mark the slot free and reset its buffer. -/
def close_client (s : ServerState) (i : Nat) : ServerState :=
  let fd := (slot s i).fd
  if fd < 0 then s
  else
    { s with
      closedLog := s.closedLog ++ [fd]
      master_read_set := s.master_read_set.erase fd
      master_write_set := s.master_write_set.erase fd
      clients := s.clients.set i emptyClient }

/-- One `accept(2)` return: `ok fd nb` is a successful accept of `fd` where
`nb` records whether the subsequent `set_nonblocking` call succeeded;
`wouldblock` is `EAGAIN`/`EWOULDBLOCK`; `err` any other errno. -/
inductive AcceptRes where
  | ok (fd : Int) (nb : Bool)
  | wouldblock
  | err
deriving DecidableEq

/-- The `for (i = 0; i < FD_SETSIZE; ++i)` scan of `handle_new_connection`:
absolute index of the first slot with `fd < 0`, starting the count at `i`. -/
def findFreeSlot : List Client → Nat → Option Nat
  | [], _ => none
  | c :: rest, i => if c.fd < 0 then some i else findFreeSlot rest (i + 1)

/-- C `handle_new_connection`, driven by an accept oracle (one entry per
`accept` call; the function consumes at most one).  Mirrors the source order:
accept, set non-blocking (close and abandon on failure), `FD_SET` into the
master read-set, raise `max_fd`, scan for a free slot, and on exhaustion
close the fd and `FD_CLR` it again. -/
def handle_new_connection (s : ServerState) (ro : List AcceptRes) :
    ServerState × List AcceptRes :=
  match ro with
  | [] => (s, [])
  | r :: rest =>
    (match r with
     | AcceptRes.wouldblock => s
     | AcceptRes.err => s
     | AcceptRes.ok fd nb =>
       if nb = false then { s with closedLog := s.closedLog ++ [fd] }
       else
         let s1 := { s with master_read_set := insert fd s.master_read_set }
         let s2 := if s1.max_fd < fd then { s1 with max_fd := fd } else s1
         match findFreeSlot s2.clients 0 with
         | some i => { s2 with clients := s2.clients.set i ⟨fd, init_write_buffer⟩ }
         | none =>
             { s2 with
               closedLog := s2.closedLog ++ [fd]
               master_read_set := s2.master_read_set.erase fd }, rest)

/-- One `recv(2)` return: `bytes chunk` is a successful recv of
`chunk.length` bytes (`chunk = []` models `recv` returning `0`, peer
shutdown); `wouldblock` is `EAGAIN`/`EWOULDBLOCK`; `err` any other errno. -/
inductive RecvRes where
  | bytes (chunk : List Nat)
  | wouldblock
  | err
deriving DecidableEq

/-- C `handle_client_read`, driven by a recv oracle (one entry per `recv`
call; the function consumes exactly one when the oracle is non-empty).
Mirrors the source case split on `bytes_received`. -/
def handle_client_read (s : ServerState) (i : Nat) (ro : List RecvRes) :
    ServerState × List RecvRes :=
  match ro with
  | [] => (s, [])
  | r :: rest =>
    (match r with
     | RecvRes.wouldblock => s
     | RecvRes.err => close_client s i
     | RecvRes.bytes chunk =>
       if chunk.length = 0 then close_client s i
       else
         match write_buffer_append (slot s i).write_buf chunk with
         | none => close_client s i
         | some b =>
             { s with
               clients := s.clients.set i ⟨(slot s i).fd, b⟩
               master_write_set := insert (slot s i).fd s.master_write_set }, rest)

/-- C `handle_client_write`: flush the slot's buffer, then dispatch on the
result code (`-1` close, `0` disarm write-interest, `1` keep it armed). -/
def handle_client_write (s : ServerState) (i : Nat) (os : List SendRes) : ServerState :=
  let c := slot s i
  let out := write_buffer_flush c.write_buf os
  let s1 := { s with clients := s.clients.set i ⟨c.fd, out.1⟩ }
  if out.2.2 = -1 then close_client s1 i
  else if out.2.2 = 0 then
    { s1 with master_write_set := s1.master_write_set.erase c.fd }
  else s1

/-- One invariant-preserving step on the server state, as dispatched by the
event loop: acceptor, per-slot read handler, per-slot write handler, or a
connection close.  The read/write steps carry the loop's `fd < 0` slot guard
(`if (fd < 0) continue;`). -/
inductive SEv where
  | acceptEv (ro : List AcceptRes)
  | readEv (i : Nat) (ro : List RecvRes)
  | writeEv (i : Nat) (os : List SendRes)
  | closeEv (i : Nat)

/-- Apply one step to the server state. -/
def sstep (s : ServerState) (e : SEv) : ServerState :=
  match e with
  | SEv.acceptEv ro => (handle_new_connection s ro).1
  | SEv.readEv i ro =>
      if (slot s i).fd < 0 then s else (handle_client_read s i ro).1
  | SEv.writeEv i os =>
      if (slot s i).fd < 0 then s else handle_client_write s i os
  | SEv.closeEv i => close_client s i

/-- Environment guarantee for an accept step: the kernel hands out a fresh,
non-negative fd — it is not currently registered in either master set. -/
def FreshEv (s : ServerState) (e : SEv) : Prop :=
  match e with
  | SEv.acceptEv (AcceptRes.ok fd _ :: _) =>
      0 ≤ fd ∧ fd ∉ s.master_read_set ∧ fd ∉ s.master_write_set
  | _ => True

/-- Claimed invariant (1): a slot is occupied iff its fd is in the master
read-set. -/
def slotReadInv (s : ServerState) : Prop :=
  ∀ i, i < s.clients.length → (0 ≤ (slot s i).fd ↔ (slot s i).fd ∈ s.master_read_set)

/-- Claimed invariant (2), in its strong form: a slot whose fd is in the
master write-set has unsent bytes staged in its write buffer. -/
def slotWriteInv (s : ServerState) : Prop :=
  ∀ i, i < s.clients.length →
    (slot s i).fd ∈ s.master_write_set → wb_pending (slot s i).write_buf ≠ []

/-- Auxiliary strengthening needed to push the two claimed invariants through
every step: master sets hold only non-negative fds, occupied slots have
pairwise distinct fds, and write-interest implies read-interest. -/
def ServerInv (s : ServerState) : Prop :=
  slotReadInv s ∧
  slotWriteInv s ∧
  (∀ x ∈ s.master_read_set, 0 ≤ x) ∧
  (∀ i j, i < s.clients.length → j < s.clients.length → i ≠ j →
    0 ≤ (slot s i).fd → (slot s i).fd ≠ (slot s j).fd) ∧
  s.master_write_set ⊆ s.master_read_set

/-- Per-connection echo view of one slot.  `connOpen` is `fd >= 0`;
the buffer is the slot's write buffer. -/
structure EchoState where
  connOpen : Bool
  buf : WriteBuffer
deriving DecidableEq

/-- The slot state of a freshly accepted connection. -/
def echoInit : EchoState := ⟨true, init_write_buffer⟩

/-- One handler invocation on the slot: `rd chunk` is a read-handler run whose
`recv` delivered `chunk` (`[]` = orderly shutdown), `wr os` is a write-handler
run whose flush is driven by send oracle `os`. -/
inductive EchoEv where
  | rd (chunk : List Nat)
  | wr (os : List SendRes)
deriving DecidableEq

/-- One handler invocation projected onto a slot, mirroring
`handle_client_read` and `handle_client_write`.  Returns the new slot state,
the bytes delivered to the read handler, and the bytes transmitted by the
flush.  A closed slot is skipped (the loop's `fd < 0` guard). -/
def echo_step (s : EchoState) (e : EchoEv) : EchoState × List Nat × List Nat :=
  if s.connOpen = false then (s, [], [])
  else
    match e with
    | EchoEv.rd chunk =>
      if chunk.length = 0 then (⟨false, init_write_buffer⟩, [], [])
      else
        match write_buffer_append s.buf chunk with
        | none => (⟨false, init_write_buffer⟩, chunk, [])
        | some b => (⟨true, b⟩, chunk, [])
    | EchoEv.wr os =>
      let out := write_buffer_flush s.buf os
      if out.2.2 = -1 then (⟨false, init_write_buffer⟩, [], out.2.1)
      else (⟨true, out.1⟩, [], out.2.1)

/-- Run a sequence of handler invocations, concatenating the delivered and
transmitted byte streams. -/
def echo_run : EchoState → List EchoEv → EchoState × List Nat × List Nat
  | s, [] => (s, [], [])
  | s, e :: evs =>
      let o1 := echo_step s e
      let o2 := echo_run o1.1 evs
      (o2.1, o1.2.1 ++ o2.2.1, o1.2.2 ++ o2.2.2)

/-- Total number of bytes delivered by the read events of a trace. -/
def totalRd : List EchoEv → Nat
  | [] => 0
  | EchoEv.rd chunk :: evs => chunk.length + totalRd evs
  | EchoEv.wr _ :: evs => totalRd evs

/-- Concatenation of the byte chunks delivered by the read events. -/
def rdConcat : List EchoEv → List Nat
  | [] => []
  | EchoEv.rd chunk :: evs => chunk ++ rdConcat evs
  | EchoEv.wr _ :: evs => rdConcat evs

/-- Well-behaved event: read chunks are non-empty (the peer does not shut
down) and send oracles report no fatal errno. -/
def evOk : EchoEv → Bool
  | EchoEv.rd chunk => !chunk.isEmpty
  | EchoEv.wr os => os.all (fun o => match o with | SendRes.err => false | _ => true)

/-- One `select(2)` return: `ready rs ws` gives the readable/writable working
copies, `eintr` is failure with `errno == EINTR`, `fail` any other failure. -/
inductive SelectRes where
  | ready (rs ws : Finset Int)
  | eintr
  | fail

/-- Oracle for one event-loop iteration: the select result, the accept
oracle, and per-slot recv/send oracles. -/
structure IterOracle where
  sel : SelectRes
  acc : List AcceptRes
  recvs : Nat → List RecvRes
  sends : Nat → List SendRes

/-- The `for (i = 0; i < FD_SETSIZE; i++)` dispatch over the slot table:
skip empty slots, run the read handler when `fd` is in the readable working
copy, then run the write handler when the slot is still occupied and `fd` is
in the writable working copy (`fd` tested as read at loop entry). -/
def dispatchSlots (rs ws : Finset Int) (recvs : Nat → List RecvRes)
    (sends : Nat → List SendRes) : ServerState → Nat → Nat → ServerState
  | s, _, 0 => s
  | s, i, fuel + 1 =>
      let fd := (slot s i).fd
      let s2 :=
        if fd < 0 then s
        else
          let s1 := if fd ∈ rs then (handle_client_read s i (recvs i)).1 else s
          if 0 ≤ (slot s1 i).fd ∧ fd ∈ ws then handle_client_write s1 i (sends i)
          else s1
      dispatchSlots rs ws recvs sends s2 (i + 1) fuel

/-- Outcome of one iteration of the `while (true)` loop in
`run_server_with_select`: either continue with a new state, or return a fatal
error code to `main`. -/
inductive LoopOut where
  | next (s : ServerState)
  | fatal (code : Int)

/-- One iteration of the event loop: block on `select`; on `EINTR` continue
unchanged; on any other failure return `-1`; otherwise dispatch the acceptor
(when the listener is readable) and then every slot handler. -/
def loop_iter (s : ServerState) (o : IterOracle) : LoopOut :=
  match o.sel with
  | SelectRes.eintr => LoopOut.next s
  | SelectRes.fail => LoopOut.fatal (-1)
  | SelectRes.ready rs ws =>
      let s1 := if s.server_fd ∈ rs then (handle_new_connection s o.acc).1 else s
      LoopOut.next (dispatchSlots rs ws o.recvs o.sends s1 0 s1.clients.length)

/-- The event loop over a finite oracle trace.  The C loop is infinite; an
exhausted trace returns the current state with code `0` (never reached by the
C code, which only leaves the loop through the fatal path). -/
def run_loop : ServerState → List IterOracle → Int × ServerState
  | s, [] => (0, s)
  | s, o :: rest =>
      match loop_iter s o with
      | LoopOut.next s1 => run_loop s1 rest
      | LoopOut.fatal c => (c, s)

/-- C `main`: returns the result of `run_server_with_select` as the process
exit status. -/
def main_result (s : ServerState) (os : List IterOracle) : Int := (run_loop s os).1

/-- A sample server state used to instantiate theorems: listener fd 3, one
client at slot 0 with fd 5 and one staged byte, one free slot. -/
def sampleServer : ServerState :=
  ⟨3, [⟨5, ⟨[9], 0⟩⟩, emptyClient], {3, 5}, {5}, 5, []⟩

/-- Claimed invariant for C7: `max_fd` dominates the listener fd and every
occupied slot fd (and stays non-negative). -/
def MaxFdInv (s : ServerState) : Prop :=
  0 ≤ s.max_fd ∧ s.server_fd ≤ s.max_fd ∧
  ∀ i, i < s.clients.length → (slot s i).fd ≤ s.max_fd

example : write_buffer_append ⟨[1, 2], 2⟩ [7, 8] = some ⟨[7, 8], 0⟩ := by decide

example : write_buffer_flush ⟨[1, 2, 3], 0⟩ [SendRes.ok 2, SendRes.wouldblock] =
    (⟨[1, 2, 3], 2⟩, [1, 2], 1) := by decide

example : write_buffer_flush ⟨[1, 2, 3], 1⟩ [SendRes.ok 5] = (⟨[], 0⟩, [2, 3], 0) := by
  decide

example : write_buffer_flush ⟨[1, 2, 3], 0⟩ [SendRes.ok 1, SendRes.err] =
    (⟨[1, 2, 3], 1⟩, [1], -1) := by decide

/-- `write_buffer_append` rejects a chunk exactly when the pre-reset
`size + len` exceeds the capacity. -/
theorem write_buffer_append_none_iff (buf : WriteBuffer) (d : List Nat) :
    write_buffer_append buf d = none ↔
      MAX_PENDING_WRITES < buf.data.length + d.length := by
  unfold write_buffer_append
  by_cases h : MAX_PENDING_WRITES < buf.data.length + d.length <;> simp [h]

/-- A successful append extends the pending bytes by exactly the appended
chunk, and retains the capacity bound on the staged size. -/
theorem write_buffer_append_some (buf : WriteBuffer) (d : List Nat) (b' : WriteBuffer)
    (h : write_buffer_append buf d = some b') :
    wb_pending b' = wb_pending buf ++ d ∧
    b'.data.length ≤ buf.data.length + d.length ∧
    b'.data.length ≤ MAX_PENDING_WRITES ∧
    b'.offset ≤ b'.data.length := by
  unfold write_buffer_append at h
  by_cases hc : MAX_PENDING_WRITES < buf.data.length + d.length
  · simp [hc] at h
  · simp only [hc, if_false] at h
    by_cases hr : buf.data.length ≤ buf.offset
    · simp only [hr, if_true, init_write_buffer] at h
      cases h
      constructor
      · simp [wb_pending, List.drop_eq_nil_of_le hr]
      · simp
        omega
    · simp only [hr, if_false] at h
      cases h
      refine ⟨?_, by simp, by simp; omega, by simp; omega⟩
      simp [wb_pending, List.drop_append_of_le_length (by omega : buf.offset ≤ buf.data.length)]

/-- Full characterisation of one `write_buffer_flush` call: the result code is
one of `0`, `1`, `-1`; on `0` the buffer is reset; otherwise `data` is untouched,
`offset` has advanced by exactly the transmitted byte count and data is still
pending; and the transmitted bytes followed by the still-pending bytes are
exactly the bytes that were pending before the call. -/
theorem write_buffer_flush_spec (os : List SendRes) : ∀ buf : WriteBuffer,
    ((write_buffer_flush buf os).2.2 = 0 ∨ (write_buffer_flush buf os).2.2 = 1 ∨
      (write_buffer_flush buf os).2.2 = -1) ∧
    ((write_buffer_flush buf os).2.2 = 0 →
      (write_buffer_flush buf os).1 = init_write_buffer) ∧
    ((write_buffer_flush buf os).2.2 ≠ 0 →
      (write_buffer_flush buf os).1.data = buf.data ∧
      (write_buffer_flush buf os).1.offset = buf.offset + (write_buffer_flush buf os).2.1.length ∧
      (write_buffer_flush buf os).1.offset < (write_buffer_flush buf os).1.data.length) ∧
    (write_buffer_flush buf os).2.1 ++ wb_pending (write_buffer_flush buf os).1 =
      wb_pending buf := by
  induction os with
  | nil =>
    intro buf
    by_cases h : buf.offset < buf.data.length
    · simp [write_buffer_flush, h, wb_pending]
    · simp [write_buffer_flush, h, wb_pending, init_write_buffer,
        List.drop_eq_nil_of_le (by omega : buf.data.length ≤ buf.offset)]
  | cons o rest ih =>
    intro buf
    by_cases h : buf.offset < buf.data.length
    · cases o with
      | wouldblock => simp [write_buffer_flush, h, wb_pending]
      | err => simp [write_buffer_flush, h, wb_pending]
      | ok n =>
        have hk : min n (buf.data.length - buf.offset) ≤ buf.data.length - buf.offset :=
          min_le_right _ _
        have := ih ⟨buf.data, buf.offset + min n (buf.data.length - buf.offset)⟩
        simp only [write_buffer_flush, if_pos h]
        obtain ⟨h1, h2, h3, h4⟩ := this
        refine ⟨h1, ?_, ?_, ?_⟩
        · intro hz
          exact h2 hz
        · intro hz
          obtain ⟨ha, hb, hc⟩ := h3 hz
          refine ⟨ha, ?_, hc⟩
          rw [hb]
          simp [List.length_take, List.length_drop]
          omega
        · rw [List.append_assoc, h4]
          simp only [wb_pending]
          rw [show buf.data.drop (buf.offset + min n (buf.data.length - buf.offset)) =
              (buf.data.drop buf.offset).drop (min n (buf.data.length - buf.offset)) by
            rw [List.drop_drop]]
          exact List.take_append_drop _ _
    · simp [write_buffer_flush, h, wb_pending, init_write_buffer,
        List.drop_eq_nil_of_le (by omega : buf.data.length ≤ buf.offset)]

example : echo_run echoInit [EchoEv.rd [1, 2], EchoEv.wr [SendRes.ok 9], EchoEv.rd [3]] =
    (⟨true, ⟨[3], 0⟩⟩, [1, 2, 3], [1, 2]) := by decide

theorem getD_set_self {α : Type} (l : List α) (i : Nat) (a d : α) (hi : i < l.length) :
    (l.set i a).getD i d = a := by
  simp [List.getD_eq_getElem?_getD, List.getElem?_set_self', List.getElem?_eq_getElem, hi]

theorem getD_set_ne {α : Type} (l : List α) (i j : Nat) (a d : α) (h : i ≠ j) :
    (l.set i a).getD j d = l.getD j d := by
  simp [List.getD_eq_getElem?_getD, List.getElem?_set_ne h]

theorem getD_ge {α : Type} (l : List α) (i : Nat) (d : α) (h : l.length ≤ i) :
    l.getD i d = d := by
  simp [List.getD_eq_getElem?_getD, List.getElem?_eq_none h]

theorem slot_in_range (s : ServerState) (i : Nat) (h : 0 ≤ (slot s i).fd) :
    i < s.clients.length := by
  by_contra hj
  have he : slot s i = emptyClient := getD_ge _ _ _ (by omega)
  rw [he] at h
  exact absurd h (by decide)

/-- `close_client` on an occupied slot, unfolded. -/
theorem close_client_eq (s : ServerState) (i : Nat) (h : ¬((slot s i).fd < 0)) :
    close_client s i =
      { s with
        closedLog := s.closedLog ++ [(slot s i).fd]
        master_read_set := s.master_read_set.erase (slot s i).fd
        master_write_set := s.master_write_set.erase (slot s i).fd
        clients := s.clients.set i emptyClient } := by
  simp [close_client, h]

/-- `close_client` on a free slot is the identity. -/
theorem close_client_id (s : ServerState) (i : Nat) (h : (slot s i).fd < 0) :
    close_client s i = s := by
  simp [close_client, h]

/-- C8: closing an occupied slot closes the fd, clears it from both master
sets, frees the slot and resets its buffer; and `close_client` is
idempotent. -/
theorem close_client_spec (s : ServerState) (i : Nat) :
    (0 ≤ (slot s i).fd →
      (close_client s i).closedLog = s.closedLog ++ [(slot s i).fd] ∧
      (close_client s i).master_read_set = s.master_read_set.erase (slot s i).fd ∧
      (close_client s i).master_write_set = s.master_write_set.erase (slot s i).fd ∧
      (slot s i).fd ∉ (close_client s i).master_read_set ∧
      (slot s i).fd ∉ (close_client s i).master_write_set ∧
      (slot (close_client s i) i).fd = -1 ∧
      (slot (close_client s i) i).write_buf = init_write_buffer) ∧
    close_client (close_client s i) i = close_client s i := by
  constructor
  · intro h
    have hlt : ¬((slot s i).fd < 0) := by omega
    have hi : i < s.clients.length := slot_in_range s i h
    have hslot : slot (close_client s i) i = emptyClient := by
      rw [close_client_eq s i hlt]
      simp only [slot]
      exact getD_set_self _ _ _ _ hi
    rw [close_client_eq s i hlt]
    refine ⟨rfl, rfl, rfl, Finset.not_mem_erase _ _, Finset.not_mem_erase _ _, ?_, ?_⟩
    · rw [← close_client_eq s i hlt, hslot]; rfl
    · rw [← close_client_eq s i hlt, hslot]; rfl
  · by_cases hfd : (slot s i).fd < 0
    · rw [close_client_id s i hfd, close_client_id s i hfd]
    · have hi : i < s.clients.length := slot_in_range s i (by omega)
      have hslot : slot (close_client s i) i = emptyClient := by
        rw [close_client_eq s i hfd]
        simp only [slot]
        exact getD_set_self _ _ _ _ hi
      exact close_client_id _ _ (by rw [hslot]; decide)

/-- Witness for C8: closing slot 0 of the sample state logs fd 5, erases it
from both sets, frees the slot, and a second close changes nothing. -/
theorem close_client_spec_w :
    ((0 : Int) ≤ (slot sampleServer 0).fd →
      (close_client sampleServer 0).closedLog = sampleServer.closedLog ++ [(slot sampleServer 0).fd] ∧
      (close_client sampleServer 0).master_read_set = sampleServer.master_read_set.erase (slot sampleServer 0).fd ∧
      (close_client sampleServer 0).master_write_set = sampleServer.master_write_set.erase (slot sampleServer 0).fd ∧
      (slot sampleServer 0).fd ∉ (close_client sampleServer 0).master_read_set ∧
      (slot sampleServer 0).fd ∉ (close_client sampleServer 0).master_write_set ∧
      (slot (close_client sampleServer 0) 0).fd = -1 ∧
      (slot (close_client sampleServer 0) 0).write_buf = init_write_buffer) ∧
    close_client (close_client sampleServer 0) 0 = close_client sampleServer 0 :=
  close_client_spec sampleServer 0

/-- Counterexample to C1: a logically empty buffer (`offset == size`) with
`size = MAX_PENDING_WRITES`, appending a single byte.  After the claimed
pre-append reset the byte would fit (`0 + 1 <= C_w`), but the code checks
capacity against the pre-reset `size` and rejects the append. -/
theorem write_buffer_append_cex :
    (WriteBuffer.mk (List.replicate MAX_PENDING_WRITES 0) MAX_PENDING_WRITES).offset =
      (WriteBuffer.mk (List.replicate MAX_PENDING_WRITES 0) MAX_PENDING_WRITES).data.length ∧
    0 + [(7 : Nat)].length ≤ MAX_PENDING_WRITES ∧
    write_buffer_append ⟨List.replicate MAX_PENDING_WRITES 0, MAX_PENDING_WRITES⟩ [7] =
      none := by
  refine ⟨by simp, by norm_num [MAX_PENDING_WRITES], ?_⟩
  rw [write_buffer_append_none_iff]
  simp

/-- C1 (amended): `write_buffer_append` checks capacity against the
pre-reset `size`: it rejects with BufferFull exactly when the pre-reset
`size + L` exceeds `C_w`, and otherwise resets a logically empty buffer
(`offset >= size`) and then copies the bytes after the staged region. -/
theorem write_buffer_append_amended (buf : WriteBuffer) (d : List Nat) :
    (MAX_PENDING_WRITES < buf.data.length + d.length →
      write_buffer_append buf d = none) ∧
    (buf.data.length + d.length ≤ MAX_PENDING_WRITES →
      write_buffer_append buf d =
        some ⟨(if buf.data.length ≤ buf.offset then [] else buf.data) ++ d,
              if buf.data.length ≤ buf.offset then 0 else buf.offset⟩) := by
  constructor
  · intro h
    simp [write_buffer_append, h]
  · intro h
    have h2 : ¬(MAX_PENDING_WRITES < buf.data.length + d.length) := by omega
    by_cases hr : buf.data.length ≤ buf.offset <;>
      simp [write_buffer_append, h2, hr, init_write_buffer]

/-- Witness for the amended C1: an append into a fully drained two-byte
buffer resets it and stages just the new byte. -/
theorem write_buffer_append_amended_w :
    write_buffer_append ⟨[1, 2], 2⟩ [7] = some ⟨[7], 0⟩ := by
  have h := (write_buffer_append_amended ⟨[1, 2], 2⟩ [7]).2 (by decide)
  simpa using h

/-- C10: when a flush fails with a real send error partway through, the
buffer records the partial progress: `data` (hence `size`) is untouched,
`offset` has advanced by exactly the bytes transmitted by the earlier sends
of that same flush (which are precisely the first transmitted-count pending
bytes), and only `close_client` resets the buffer of an occupied slot. -/
theorem write_buffer_flush_error_state (buf : WriteBuffer) (os : List SendRes)
    (h : (write_buffer_flush buf os).2.2 = -1) :
    (write_buffer_flush buf os).1.data = buf.data ∧
    (write_buffer_flush buf os).1.offset =
      buf.offset + (write_buffer_flush buf os).2.1.length ∧
    (write_buffer_flush buf os).2.1 =
      (wb_pending buf).take (write_buffer_flush buf os).2.1.length ∧
    (∀ (s : ServerState) (i : Nat), ¬((slot s i).fd < 0) → i < s.clients.length →
      (slot (close_client s i) i).write_buf = init_write_buffer) := by
  obtain ⟨h1, h2, h3, h4⟩ := write_buffer_flush_spec os buf
  obtain ⟨ha, hb, hc⟩ := h3 (by rw [h]; decide)
  refine ⟨ha, hb, ?_, ?_⟩
  · rw [← h4, List.take_left]
  · intro s i hfd hi
    rw [close_client_eq s i hfd]
    simp only [slot]
    rw [getD_set_self _ _ _ _ hi]
    rfl

/-- Witness for C10: flushing `[1, 2, 3]` with one successful 1-byte send and
then a fatal errno leaves `data` intact and `offset` advanced to 1. -/
theorem write_buffer_flush_error_state_w :
    (write_buffer_flush ⟨[1, 2, 3], 0⟩ [SendRes.ok 1, SendRes.err]).1.data = [1, 2, 3] ∧
    (write_buffer_flush ⟨[1, 2, 3], 0⟩ [SendRes.ok 1, SendRes.err]).1.offset =
      0 + (write_buffer_flush ⟨[1, 2, 3], 0⟩ [SendRes.ok 1, SendRes.err]).2.1.length ∧
    (write_buffer_flush ⟨[1, 2, 3], 0⟩ [SendRes.ok 1, SendRes.err]).2.1 =
      (wb_pending ⟨[1, 2, 3], 0⟩).take
        (write_buffer_flush ⟨[1, 2, 3], 0⟩ [SendRes.ok 1, SendRes.err]).2.1.length ∧
    (∀ (s : ServerState) (i : Nat), ¬((slot s i).fd < 0) → i < s.clients.length →
      (slot (close_client s i) i).write_buf = init_write_buffer) :=
  write_buffer_flush_error_state ⟨[1, 2, 3], 0⟩ [SendRes.ok 1, SendRes.err] (by decide)

/-- C4: a flush has exactly the three C outcomes `0` (Done), `1` (Partial),
`-1` (Error); Done resets the buffer and the write handler disarms
write-interest; Partial leaves `data` intact with `offset` advanced by
exactly the transmitted byte count and the handler leaves the master
write-set unchanged (write-interest stays armed); Error makes the handler
close the connection. -/
theorem handle_client_write_spec (buf : WriteBuffer) (os : List SendRes)
    (s : ServerState) (i : Nat) :
    ((write_buffer_flush buf os).2.2 = 0 ∨ (write_buffer_flush buf os).2.2 = 1 ∨
      (write_buffer_flush buf os).2.2 = -1) ∧
    ((write_buffer_flush buf os).2.2 = 0 →
      (write_buffer_flush buf os).1 = init_write_buffer) ∧
    ((write_buffer_flush buf os).2.2 = 1 →
      (write_buffer_flush buf os).1.data = buf.data ∧
      (write_buffer_flush buf os).1.offset =
        buf.offset + (write_buffer_flush buf os).2.1.length) ∧
    ((write_buffer_flush (slot s i).write_buf os).2.2 = 0 →
      (slot s i).fd ∉ (handle_client_write s i os).master_write_set ∧
      (handle_client_write s i os).master_read_set = s.master_read_set) ∧
    ((write_buffer_flush (slot s i).write_buf os).2.2 = 1 →
      (handle_client_write s i os).master_write_set = s.master_write_set ∧
      (handle_client_write s i os).master_read_set = s.master_read_set) ∧
    ((write_buffer_flush (slot s i).write_buf os).2.2 = -1 →
      handle_client_write s i os =
        close_client
          { s with
            clients := s.clients.set i
              ⟨(slot s i).fd, (write_buffer_flush (slot s i).write_buf os).1⟩ } i) := by
  obtain ⟨h1, h2, _, _⟩ := write_buffer_flush_spec os buf
  refine ⟨h1, h2, ?_, ?_, ?_, ?_⟩
  · intro hr
    obtain ⟨_, _, h3, _⟩ := write_buffer_flush_spec os buf
    obtain ⟨ha, hb, _⟩ := h3 (by rw [hr]; decide)
    exact ⟨ha, hb⟩
  · intro hr
    constructor
    · simp [handle_client_write, hr, Finset.not_mem_erase]
    · simp [handle_client_write, hr]
  · intro hr
    constructor
    · simp [handle_client_write, hr]
    · simp [handle_client_write, hr]
  · intro hr
    simp [handle_client_write, hr]

/-- Witness for C4, exercising all three outcomes on the sample state's slot 0
(one staged byte): a big send gives Done and disarms fd 5; a would-block send
gives Partial and keeps the write-set unchanged; a fatal send error closes. -/
theorem handle_client_write_spec_w :
    ((write_buffer_flush (slot sampleServer 0).write_buf [SendRes.ok 9]).2.2 = 0 →
      (slot sampleServer 0).fd ∉
        (handle_client_write sampleServer 0 [SendRes.ok 9]).master_write_set ∧
      (handle_client_write sampleServer 0 [SendRes.ok 9]).master_read_set =
        sampleServer.master_read_set) ∧
    ((write_buffer_flush (slot sampleServer 0).write_buf [SendRes.wouldblock]).2.2 = 1 →
      (handle_client_write sampleServer 0 [SendRes.wouldblock]).master_write_set =
        sampleServer.master_write_set ∧
      (handle_client_write sampleServer 0 [SendRes.wouldblock]).master_read_set =
        sampleServer.master_read_set) ∧
    ((write_buffer_flush (slot sampleServer 0).write_buf [SendRes.err]).2.2 = -1 →
      handle_client_write sampleServer 0 [SendRes.err] =
        close_client
          { sampleServer with
            clients := sampleServer.clients.set 0
              ⟨(slot sampleServer 0).fd,
                (write_buffer_flush (slot sampleServer 0).write_buf [SendRes.err]).1⟩ } 0) :=
  ⟨(handle_client_write_spec (slot sampleServer 0).write_buf [SendRes.ok 9]
      sampleServer 0).2.2.2.1,
   (handle_client_write_spec (slot sampleServer 0).write_buf [SendRes.wouldblock]
      sampleServer 0).2.2.2.2.1,
   (handle_client_write_spec (slot sampleServer 0).write_buf [SendRes.err]
      sampleServer 0).2.2.2.2.2⟩

/-- C3: one read-handler invocation consumes exactly one recv oracle entry
and dispatches on it: a positive byte count is appended (close on BufferFull,
otherwise write-interest is armed), a zero count closes, would-block is a
no-op, any other error closes. -/
theorem handle_client_read_spec (s : ServerState) (i : Nat) (r : RecvRes)
    (rest : List RecvRes) :
    (handle_client_read s i (r :: rest)).2 = rest ∧
    (r = RecvRes.wouldblock → (handle_client_read s i (r :: rest)).1 = s) ∧
    (r = RecvRes.err → (handle_client_read s i (r :: rest)).1 = close_client s i) ∧
    (∀ chunk, r = RecvRes.bytes chunk →
      (chunk = [] → (handle_client_read s i (r :: rest)).1 = close_client s i) ∧
      (write_buffer_append (slot s i).write_buf chunk = none →
        (handle_client_read s i (r :: rest)).1 = close_client s i) ∧
      (∀ b, write_buffer_append (slot s i).write_buf chunk = some b → chunk ≠ [] →
        (handle_client_read s i (r :: rest)).1 =
          { s with
            clients := s.clients.set i ⟨(slot s i).fd, b⟩
            master_write_set := insert (slot s i).fd s.master_write_set } ∧
        (slot s i).fd ∈ (handle_client_read s i (r :: rest)).1.master_write_set)) := by
  refine ⟨rfl, ?_, ?_, ?_⟩
  · intro h; subst h; rfl
  · intro h; subst h; rfl
  · intro chunk h
    subst h
    refine ⟨?_, ?_, ?_⟩
    · intro hc
      subst hc
      rfl
    · intro hn
      by_cases hc : chunk.length = 0
      · simp [handle_client_read, hc]
      · simp [handle_client_read, hc, hn]
    · intro b hb hne
      have hc : ¬(chunk.length = 0) := by simpa using hne
      constructor
      · simp [handle_client_read, hc, hb]
      · simp [handle_client_read, hc, hb]

/-- Witness for C3 on the sample state: a 1-byte recv appends and arms
write-interest for fd 5; a zero-byte recv closes; would-block is a no-op. -/
theorem handle_client_read_spec_w :
    ((handle_client_read sampleServer 0 [RecvRes.bytes [4]]).1 =
        { sampleServer with
          clients := sampleServer.clients.set 0 ⟨(slot sampleServer 0).fd, ⟨[9, 4], 0⟩⟩
          master_write_set := insert (slot sampleServer 0).fd sampleServer.master_write_set } ∧
      (slot sampleServer 0).fd ∈
        (handle_client_read sampleServer 0 [RecvRes.bytes [4]]).1.master_write_set) ∧
    (handle_client_read sampleServer 0 [RecvRes.bytes []]).1 = close_client sampleServer 0 ∧
    (handle_client_read sampleServer 0 [RecvRes.wouldblock]).1 = sampleServer :=
  ⟨((handle_client_read_spec sampleServer 0 (RecvRes.bytes [4]) []).2.2.2 [4] rfl).2.2
      ⟨[9, 4], 0⟩ (by decide) (by decide),
   ((handle_client_read_spec sampleServer 0 (RecvRes.bytes []) []).2.2.2 [] rfl).1 rfl,
   (handle_client_read_spec sampleServer 0 RecvRes.wouldblock []).2.1 rfl⟩

/-- `findFreeSlot` returns the least index (counting from `k`) of a free
slot. -/
theorem findFreeSlot_spec : ∀ (l : List Client) (k i : Nat),
    findFreeSlot l k = some i →
    k ≤ i ∧ (i - k) < l.length ∧ (l.getD (i - k) emptyClient).fd < 0 ∧
    (∀ j, j < i - k → ¬((l.getD j emptyClient).fd < 0)) := by
  intro l
  induction l with
  | nil => intro k i h; simp [findFreeSlot] at h
  | cons c rest ih =>
    intro k i h
    by_cases hc : c.fd < 0
    · simp [findFreeSlot, hc] at h
      subst h
      refine ⟨le_refl _, by simp, by simpa using hc, ?_⟩
      intro j hj
      omega
    · simp [findFreeSlot, hc] at h
      obtain ⟨h1, h2, h3, h4⟩ := ih (k + 1) i h
      have hik : i - k = (i - (k + 1)) + 1 := by omega
      refine ⟨by omega, by simp; omega, ?_, ?_⟩
      · rw [hik]
        simpa using h3
      · intro j hj
        cases j with
        | zero => simpa using hc
        | succ m =>
          have : m < i - (k + 1) := by omega
          simpa using h4 m this

/-- If `findFreeSlot` fails, every slot is occupied. -/
theorem findFreeSlot_none : ∀ (l : List Client) (k : Nat),
    findFreeSlot l k = none → ∀ c ∈ l, ¬(c.fd < 0) := by
  intro l
  induction l with
  | nil => intro k _ c hc; simp at hc
  | cons c rest ih =>
    intro k h d hd
    by_cases hc : c.fd < 0
    · simp [findFreeSlot, hc] at h
    · simp [findFreeSlot, hc] at h
      rcases List.mem_cons.mp hd with he | hm
      · subst he; exact hc
      · exact ih (k + 1) h d hm

/-- The successful-accept path of `handle_new_connection`, unfolded. -/
theorem handle_new_connection_ok (s : ServerState) (fd : Int) (rest : List AcceptRes) :
    (handle_new_connection s (AcceptRes.ok fd true :: rest)).1 =
      match findFreeSlot s.clients 0 with
      | some i =>
          { s with
            master_read_set := insert fd s.master_read_set
            max_fd := max s.max_fd fd
            clients := s.clients.set i ⟨fd, init_write_buffer⟩ }
      | none =>
          { s with
            master_read_set := (insert fd s.master_read_set).erase fd
            max_fd := max s.max_fd fd
            closedLog := s.closedLog ++ [fd] } := by
  by_cases hm : s.max_fd < fd
  · have hmax : max s.max_fd fd = fd := max_eq_right hm.le
    cases hf : findFreeSlot s.clients 0 with
    | some i => simp [handle_new_connection, hm, hf, hmax]
    | none => simp [handle_new_connection, hm, hf, hmax]
  · have hmax : max s.max_fd fd = s.max_fd := max_eq_left (by omega)
    cases hf : findFreeSlot s.clients 0 with
    | some i => simp [handle_new_connection, hm, hf, hmax]
    | none => simp [handle_new_connection, hm, hf, hmax]

/-- C6: the acceptor consumes at most one accept-oracle entry per invocation;
on non-blocking-setup failure it closes and abandons the fd; on success it
registers read-interest, raises `max_fd` to `max(max_fd, new_fd)` and installs
the fd in the lowest-index free slot with a zeroed buffer; when every slot is
occupied it closes the fd, clears its read-interest and leaves the slot table
unchanged. -/
theorem handle_new_connection_spec (s : ServerState) (ro : List AcceptRes) :
    (handle_new_connection s ro).2 = ro.drop 1 ∧
    (∀ rest, ro = AcceptRes.wouldblock :: rest → (handle_new_connection s ro).1 = s) ∧
    (∀ rest, ro = AcceptRes.err :: rest → (handle_new_connection s ro).1 = s) ∧
    (∀ fd rest, ro = AcceptRes.ok fd false :: rest →
      (handle_new_connection s ro).1 = { s with closedLog := s.closedLog ++ [fd] }) ∧
    (∀ fd rest, ro = AcceptRes.ok fd true :: rest →
      (∀ i, findFreeSlot s.clients 0 = some i →
        (handle_new_connection s ro).1 =
          { s with
            master_read_set := insert fd s.master_read_set
            max_fd := max s.max_fd fd
            clients := s.clients.set i ⟨fd, init_write_buffer⟩ } ∧
        i < s.clients.length ∧ (slot s i).fd < 0 ∧
        (∀ j, j < i → ¬((slot s j).fd < 0))) ∧
      (findFreeSlot s.clients 0 = none →
        ((handle_new_connection s ro).1.clients = s.clients ∧
         fd ∉ (handle_new_connection s ro).1.master_read_set ∧
         (handle_new_connection s ro).1.closedLog = s.closedLog ++ [fd] ∧
         (handle_new_connection s ro).1.max_fd = max s.max_fd fd) ∧
        (∀ c ∈ s.clients, ¬(c.fd < 0)))) := by
  refine ⟨?_, ?_, ?_, ?_, ?_⟩
  · cases ro with
    | nil => rfl
    | cons r rest => rfl
  · intro rest h; subst h; rfl
  · intro rest h; subst h; rfl
  · intro fd rest h; subst h; rfl
  · intro fd rest h
    subst h
    constructor
    · intro i hf
      obtain ⟨_, h2, h3, h4⟩ := findFreeSlot_spec s.clients 0 i hf
      refine ⟨?_, by simpa using h2, by simpa [slot] using h3, ?_⟩
      · rw [handle_new_connection_ok, hf]
      · intro j hj
        simpa [slot] using h4 j (by omega)
    · intro hf
      refine ⟨⟨?_, ?_, ?_, ?_⟩, findFreeSlot_none s.clients 0 hf⟩
      · rw [handle_new_connection_ok, hf]
      · rw [handle_new_connection_ok, hf]
        exact Finset.not_mem_erase _ _
      · rw [handle_new_connection_ok, hf]
      · rw [handle_new_connection_ok, hf]

/-- Witness for C6 on the sample state: accepting fresh fd 7 installs it in
slot 1 (the lowest free slot), registers read-interest and raises `max_fd`. -/
theorem handle_new_connection_spec_w :
    (handle_new_connection sampleServer [AcceptRes.ok 7 true]).2 = [] ∧
    (handle_new_connection sampleServer [AcceptRes.ok 7 true]).1 =
      { sampleServer with
        master_read_set := insert 7 sampleServer.master_read_set
        max_fd := max sampleServer.max_fd 7
        clients := sampleServer.clients.set 1 ⟨7, init_write_buffer⟩ } ∧
    1 < sampleServer.clients.length ∧ (slot sampleServer 1).fd < 0 ∧
    (∀ j, j < 1 → ¬((slot sampleServer j).fd < 0)) := by
  have h := handle_new_connection_spec sampleServer [AcceptRes.ok 7 true]
  have h2 := (h.2.2.2.2 7 [] rfl).1 1 (by decide)
  exact ⟨h.1, h2.1, h2.2.1, h2.2.2.1, h2.2.2.2⟩

/-- C9: an `EINTR` from `select` continues the loop with the whole state
(slots, buffers, master sets, `max_fd`) unchanged; any other `select` failure
returns `-1` through `run_server_with_select` and `main`, a non-zero exit
status. -/
theorem run_loop_wait_error (s : ServerState) (o : IterOracle)
    (rest : List IterOracle) :
    (o.sel = SelectRes.eintr →
      loop_iter s o = LoopOut.next s ∧
      run_loop s (o :: rest) = run_loop s rest) ∧
    (o.sel = SelectRes.fail →
      run_loop s (o :: rest) = (-1, s) ∧
      main_result s (o :: rest) = -1 ∧ main_result s (o :: rest) ≠ 0) := by
  constructor
  · intro h
    constructor
    · simp [loop_iter, h]
    · simp [run_loop, loop_iter, h]
  · intro h
    refine ⟨?_, ?_, ?_⟩
    · simp [run_loop, loop_iter, h]
    · simp [main_result, run_loop, loop_iter, h]
    · simp [main_result, run_loop, loop_iter, h]

/-- Witness for C9: a signal-interrupted wait leaves the sample state
untouched; a failed wait makes `main` return `-1`. -/
theorem run_loop_wait_error_w :
    (loop_iter sampleServer ⟨SelectRes.eintr, [], fun _ => [], fun _ => []⟩ =
      LoopOut.next sampleServer ∧
     run_loop sampleServer [⟨SelectRes.eintr, [], fun _ => [], fun _ => []⟩] =
      run_loop sampleServer []) ∧
    (run_loop sampleServer [⟨SelectRes.fail, [], fun _ => [], fun _ => []⟩] =
      (-1, sampleServer) ∧
     main_result sampleServer [⟨SelectRes.fail, [], fun _ => [], fun _ => []⟩] = -1 ∧
     main_result sampleServer [⟨SelectRes.fail, [], fun _ => [], fun _ => []⟩] ≠ 0) :=
  ⟨(run_loop_wait_error sampleServer ⟨SelectRes.eintr, [], fun _ => [], fun _ => []⟩ []).1
      rfl,
   (run_loop_wait_error sampleServer ⟨SelectRes.fail, [], fun _ => [], fun _ => []⟩ []).2
      rfl⟩

theorem maxfd_slots_set (l : List Client) (i : Nat) (c : Client) (m : Int)
    (h : ∀ j, j < l.length → (l.getD j emptyClient).fd ≤ m) (hc : c.fd ≤ m) :
    ∀ j, j < (l.set i c).length → ((l.set i c).getD j emptyClient).fd ≤ m := by
  intro j hj
  rw [List.length_set] at hj
  by_cases hij : i = j
  · subst hij
    rw [getD_set_self _ _ _ _ hj]
    exact hc
  · rw [getD_set_ne _ _ _ _ _ hij]
    exact h j hj

theorem slot_fd_le_max (s : ServerState) (i : Nat) (h : MaxFdInv s) :
    (slot s i).fd ≤ s.max_fd := by
  by_cases hi : i < s.clients.length
  · exact h.2.2 i hi
  · have he : slot s i = emptyClient := getD_ge _ _ _ (by omega)
    rw [he]
    have h0 := h.1
    show (-1 : Int) ≤ s.max_fd
    omega

theorem maxFdInv_close (s : ServerState) (i : Nat) (h : MaxFdInv s) :
    MaxFdInv (close_client s i) ∧ (close_client s i).max_fd = s.max_fd := by
  by_cases hfd : (slot s i).fd < 0
  · rw [close_client_id s i hfd]
    exact ⟨h, rfl⟩
  · rw [close_client_eq s i hfd]
    obtain ⟨h0, h1, h2⟩ := h
    refine ⟨⟨h0, h1, ?_⟩, rfl⟩
    intro j hj
    exact maxfd_slots_set s.clients i emptyClient s.max_fd h2 (by show (-1 : Int) ≤ _; omega) j hj

theorem maxFdInv_read (s : ServerState) (i : Nat) (ro : List RecvRes) (h : MaxFdInv s) :
    MaxFdInv (handle_client_read s i ro).1 ∧
    (handle_client_read s i ro).1.max_fd = s.max_fd := by
  match ro with
  | [] => exact ⟨h, rfl⟩
  | RecvRes.wouldblock :: rest => exact ⟨h, rfl⟩
  | RecvRes.err :: rest => exact maxFdInv_close s i h
  | RecvRes.bytes chunk :: rest =>
    by_cases hc : chunk.length = 0
    · have he : (handle_client_read s i (RecvRes.bytes chunk :: rest)).1 = close_client s i := by
        simp [handle_client_read, hc]
      rw [he]
      exact maxFdInv_close s i h
    · cases hb : write_buffer_append (slot s i).write_buf chunk with
      | none =>
        have he : (handle_client_read s i (RecvRes.bytes chunk :: rest)).1 = close_client s i := by
          simp [handle_client_read, hc, hb]
        rw [he]
        exact maxFdInv_close s i h
      | some b =>
        have he : (handle_client_read s i (RecvRes.bytes chunk :: rest)).1 =
            { s with
              clients := s.clients.set i ⟨(slot s i).fd, b⟩
              master_write_set := insert (slot s i).fd s.master_write_set } := by
          simp [handle_client_read, hc, hb]
        rw [he]
        obtain ⟨h0, h1, h2⟩ := h
        refine ⟨⟨h0, h1, ?_⟩, rfl⟩
        intro j hj
        exact maxfd_slots_set s.clients i ⟨(slot s i).fd, b⟩ s.max_fd h2
          (slot_fd_le_max s i ⟨h0, h1, h2⟩) j hj

theorem maxFdInv_write (s : ServerState) (i : Nat) (os : List SendRes) (h : MaxFdInv s) :
    MaxFdInv (handle_client_write s i os) ∧
    (handle_client_write s i os).max_fd = s.max_fd := by
  have hs1 : MaxFdInv
      { s with clients :=
          s.clients.set i ⟨(slot s i).fd, (write_buffer_flush (slot s i).write_buf os).1⟩ } := by
    obtain ⟨h0, h1, h2⟩ := h
    refine ⟨h0, h1, ?_⟩
    intro j hj
    exact maxfd_slots_set s.clients i
      ⟨(slot s i).fd, (write_buffer_flush (slot s i).write_buf os).1⟩ s.max_fd h2
      (slot_fd_le_max s i ⟨h0, h1, h2⟩) j hj
  rcases (write_buffer_flush_spec os (slot s i).write_buf).1 with hr | hr | hr
  · have he : handle_client_write s i os =
        { { s with clients :=
              s.clients.set i ⟨(slot s i).fd, (write_buffer_flush (slot s i).write_buf os).1⟩ } with
          master_write_set := s.master_write_set.erase (slot s i).fd } := by
      simp [handle_client_write, hr]
    rw [he]
    exact ⟨⟨hs1.1, hs1.2.1, hs1.2.2⟩, rfl⟩
  · have he : handle_client_write s i os =
        { s with clients :=
            s.clients.set i ⟨(slot s i).fd, (write_buffer_flush (slot s i).write_buf os).1⟩ } := by
      simp [handle_client_write, hr]
    rw [he]
    exact ⟨hs1, rfl⟩
  · have he : handle_client_write s i os =
        close_client
          { s with clients :=
              s.clients.set i ⟨(slot s i).fd, (write_buffer_flush (slot s i).write_buf os).1⟩ } i := by
      simp [handle_client_write, hr]
    rw [he]
    exact maxFdInv_close _ i hs1

theorem close_client_max (s : ServerState) (i : Nat) :
    (close_client s i).max_fd = s.max_fd := by
  by_cases hfd : (slot s i).fd < 0
  · rw [close_client_id s i hfd]
  · rw [close_client_eq s i hfd]

theorem handle_client_read_max (s : ServerState) (i : Nat) (ro : List RecvRes) :
    (handle_client_read s i ro).1.max_fd = s.max_fd := by
  match ro with
  | [] => rfl
  | RecvRes.wouldblock :: rest => rfl
  | RecvRes.err :: rest => exact close_client_max s i
  | RecvRes.bytes chunk :: rest =>
    by_cases hc : chunk.length = 0
    · simp [handle_client_read, hc, close_client_max]
    · cases hb : write_buffer_append (slot s i).write_buf chunk with
      | none => simp [handle_client_read, hc, hb, close_client_max]
      | some b => simp [handle_client_read, hc, hb]

theorem handle_client_write_max (s : ServerState) (i : Nat) (os : List SendRes) :
    (handle_client_write s i os).max_fd = s.max_fd := by
  rcases (write_buffer_flush_spec os (slot s i).write_buf).1 with hr | hr | hr <;>
    simp [handle_client_write, hr, close_client_max]

theorem maxFdInv_accept (s : ServerState) (ro : List AcceptRes) (h : MaxFdInv s) :
    MaxFdInv (handle_new_connection s ro).1 := by
  match ro with
  | [] => exact h
  | AcceptRes.wouldblock :: rest => exact h
  | AcceptRes.err :: rest => exact h
  | AcceptRes.ok fd false :: rest => exact ⟨h.1, h.2.1, h.2.2⟩
  | AcceptRes.ok fd true :: rest =>
    rw [handle_new_connection_ok]
    cases hf : findFreeSlot s.clients 0 with
    | some i =>
      obtain ⟨h0, h1, h2⟩ := h
      refine ⟨le_trans h0 (le_max_left _ _), le_trans h1 (le_max_left _ _), ?_⟩
      intro j hj
      exact maxfd_slots_set s.clients i ⟨fd, init_write_buffer⟩ (max s.max_fd fd)
        (fun j hj => le_trans (h2 j hj) (le_max_left _ _)) (le_max_right _ _) j hj
    | none =>
      exact ⟨le_trans h.1 (le_max_left _ _), le_trans h.2.1 (le_max_left _ _),
        fun j hj => le_trans (h.2.2 j hj) (le_max_left _ _)⟩

theorem max_fd_mono_accept (s : ServerState) (ro : List AcceptRes) :
    s.max_fd ≤ (handle_new_connection s ro).1.max_fd := by
  match ro with
  | [] => exact le_refl _
  | AcceptRes.wouldblock :: rest => exact le_refl _
  | AcceptRes.err :: rest => exact le_refl _
  | AcceptRes.ok fd false :: rest => exact le_refl _
  | AcceptRes.ok fd true :: rest =>
    rw [handle_new_connection_ok]
    cases hf : findFreeSlot s.clients 0 with
    | some i => exact le_max_left _ _
    | none => exact le_max_left _ _

/-- C7: every step (accept, read handler, write handler, close) preserves
`max_fd` at or above the listener fd and every occupied slot fd, and `max_fd`
never decreases — close does not lower it and a slot-exhaustion rejection
does not roll it back. -/
theorem max_fd_spec (s : ServerState) (e : SEv) :
    (MaxFdInv s → MaxFdInv (sstep s e)) ∧ s.max_fd ≤ (sstep s e).max_fd := by
  cases e with
  | acceptEv ro =>
    exact ⟨fun h => maxFdInv_accept s ro h, max_fd_mono_accept s ro⟩
  | readEv i ro =>
    by_cases hfd : (slot s i).fd < 0
    · simp [sstep, hfd]
    · constructor
      · intro h
        have hr := maxFdInv_read s i ro h
        simpa [sstep, hfd] using hr.1
      · simp [sstep, hfd, handle_client_read_max]
  | writeEv i os =>
    by_cases hfd : (slot s i).fd < 0
    · simp [sstep, hfd]
    · constructor
      · intro h
        have hw := maxFdInv_write s i os h
        simpa [sstep, hfd] using hw.1
      · simp [sstep, hfd, handle_client_write_max]
  | closeEv i =>
    exact ⟨fun h => (maxFdInv_close s i h).1, by simp [sstep, close_client_max]⟩

/-- Witness for C7: accepting fresh fd 9 on the sample state keeps the
invariant and does not lower `max_fd`. -/
theorem max_fd_spec_w :
    MaxFdInv (sstep sampleServer (SEv.acceptEv [AcceptRes.ok 9 true])) ∧
    sampleServer.max_fd ≤
      (sstep sampleServer (SEv.acceptEv [AcceptRes.ok 9 true])).max_fd :=
  ⟨(max_fd_spec sampleServer (SEv.acceptEv [AcceptRes.ok 9 true])).1
      (by unfold MaxFdInv; decide),
   (max_fd_spec sampleServer (SEv.acceptEv [AcceptRes.ok 9 true])).2⟩

theorem wb_pending_ne_nil (b : WriteBuffer) (h : b.offset < b.data.length) :
    wb_pending b ≠ [] := by
  simp only [wb_pending, ne_eq, List.drop_eq_nil_iff]
  omega

theorem serverInv_close (s : ServerState) (i : Nat) (h : ServerInv s) :
    ServerInv (close_client s i) := by
  by_cases hfd : (slot s i).fd < 0
  · rw [close_client_id s i hfd]
    exact h
  · obtain ⟨h1, h2, h3, h4, h5⟩ := h
    have hi : i < s.clients.length := slot_in_range s i (by omega)
    rw [close_client_eq s i hfd]
    set f := (slot s i).fd with hfdef
    refine ⟨?_, ?_, ?_, ?_, ?_⟩
    · intro j hj
      simp only [List.length_set] at hj
      by_cases hij : i = j
      · subst hij
        simp only [slot, getD_set_self _ _ _ _ hi]
        constructor
        · intro hc; exact absurd hc (by decide)
        · intro hc
          have := h3 _ (Finset.mem_of_mem_erase hc)
          exact absurd this (by decide)
      · simp only [slot, getD_set_ne _ _ _ _ _ hij]
        constructor
        · intro hj0
          rw [Finset.mem_erase]
          exact ⟨(h4 j i hj hi (fun hc => hij hc.symm) hj0), (h1 j hj).mp hj0⟩
        · intro hm
          exact h3 _ (Finset.mem_of_mem_erase hm)
    · intro j hj
      simp only [List.length_set] at hj
      by_cases hij : i = j
      · subst hij
        simp only [slot, getD_set_self _ _ _ _ hi]
        intro hm
        have hneg := h3 _ (h5 (Finset.mem_of_mem_erase hm))
        exact absurd hneg (by decide)
      · simp only [slot, getD_set_ne _ _ _ _ _ hij]
        intro hm
        exact h2 j hj (Finset.mem_of_mem_erase hm)
    · intro x hx
      exact h3 x (Finset.mem_of_mem_erase hx)
    · intro j k hj hk hjk hj0
      simp only [List.length_set] at hj hk
      by_cases hij : i = j
      · subst hij
        rw [slot, getD_set_self _ _ _ _ hi] at hj0
        exact absurd hj0 (by decide)
      · rw [slot, getD_set_ne _ _ _ _ _ hij] at hj0 ⊢
        by_cases hik : i = k
        · subst hik
          rw [slot, getD_set_self _ _ _ _ hi]
          intro hc
          rw [hc] at hj0
          exact absurd hj0 (by decide)
        · rw [slot, getD_set_ne _ _ _ _ _ hik]
          exact h4 j k hj hk hjk hj0
    · intro x hx
      rw [Finset.mem_erase] at hx ⊢
      exact ⟨hx.1, h5 hx.2⟩

theorem serverInv_read (s : ServerState) (i : Nat) (ro : List RecvRes)
    (hfd : ¬((slot s i).fd < 0)) (h : ServerInv s) :
    ServerInv (handle_client_read s i ro).1 := by
  match ro with
  | [] => exact h
  | RecvRes.wouldblock :: rest => exact h
  | RecvRes.err :: rest => exact serverInv_close s i h
  | RecvRes.bytes chunk :: rest =>
    by_cases hc : chunk.length = 0
    · have he : (handle_client_read s i (RecvRes.bytes chunk :: rest)).1 =
          close_client s i := by
        simp [handle_client_read, hc]
      rw [he]
      exact serverInv_close s i h
    · cases hb : write_buffer_append (slot s i).write_buf chunk with
      | none =>
        have he : (handle_client_read s i (RecvRes.bytes chunk :: rest)).1 =
            close_client s i := by
          simp [handle_client_read, hc, hb]
        rw [he]
        exact serverInv_close s i h
      | some b =>
        have he : (handle_client_read s i (RecvRes.bytes chunk :: rest)).1 =
            { s with
              clients := s.clients.set i ⟨(slot s i).fd, b⟩
              master_write_set := insert (slot s i).fd s.master_write_set } := by
          simp [handle_client_read, hc, hb]
        rw [he]
        obtain ⟨h1, h2, h3, h4, h5⟩ := h
        have hi : i < s.clients.length := slot_in_range s i (by omega)
        have hpend : wb_pending b ≠ [] := by
          obtain ⟨hp, _, _, _⟩ := write_buffer_append_some _ _ _ hb
          rw [hp]
          intro hnil
          have := List.append_eq_nil.mp hnil
          exact hc (by rw [this.2]; rfl)
        have hmem : (slot s i).fd ∈ s.master_read_set := (h1 i hi).mp (by omega)
        refine ⟨?_, ?_, h3, ?_, ?_⟩
        · intro j hj
          simp only [List.length_set] at hj
          by_cases hij : i = j
          · subst hij
            simp only [slot, getD_set_self _ _ _ _ hi]
            exact h1 i hi
          · simp only [slot, getD_set_ne _ _ _ _ _ hij]
            exact h1 j hj
        · intro j hj
          simp only [List.length_set] at hj
          by_cases hij : i = j
          · subst hij
            simp only [slot, getD_set_self _ _ _ _ hi]
            intro _
            exact hpend
          · simp only [slot, getD_set_ne _ _ _ _ _ hij]
            intro hm
            rcases Finset.mem_insert.mp hm with he2 | hm2
            · exfalso
              have hfd2 : ¬((s.clients.getD i emptyClient).fd < 0) := hfd
              have hj0 : (0 : Int) ≤ (slot s j).fd := by
                show (0 : Int) ≤ (s.clients.getD j emptyClient).fd
                rw [he2]
                omega
              exact (h4 j i hj hi (fun hx => hij hx.symm) hj0) he2
            · exact h2 j hj hm2
        · intro j k hj hk hjk hj0
          simp only [List.length_set] at hj hk
          simp only [slot] at hj0 ⊢
          by_cases hij : i = j
          · subst hij
            rw [getD_set_self _ _ _ _ hi] at hj0 ⊢
            by_cases hik : i = k
            · exact absurd hik hjk
            · rw [getD_set_ne _ _ _ _ _ hik]
              exact h4 i k hi hk hjk hj0
          · rw [getD_set_ne _ _ _ _ _ hij] at hj0 ⊢
            by_cases hik : i = k
            · subst hik
              rw [getD_set_self _ _ _ _ hi]
              exact h4 j i hj hi hjk hj0
            · rw [getD_set_ne _ _ _ _ _ hik]
              exact h4 j k hj hk hjk hj0
        · intro x hx
          rcases Finset.mem_insert.mp hx with he2 | hm2
          · rw [he2]; exact hmem
          · exact h5 hm2

theorem serverInv_erase_mws (s : ServerState) (f : Int) (h : ServerInv s) :
    ServerInv { s with master_write_set := s.master_write_set.erase f } := by
  obtain ⟨h1, h2, h3, h4, h5⟩ := h
  exact ⟨h1, fun j hj hm => h2 j hj (Finset.mem_of_mem_erase hm), h3, h4,
    fun x hx => h5 (Finset.mem_of_mem_erase hx)⟩

theorem serverInv_set_buf (s : ServerState) (i : Nat) (b : WriteBuffer)
    (h : ServerInv s)
    (hp : (slot s i).fd ∈ s.master_write_set → wb_pending b ≠ []) :
    ServerInv { s with clients := s.clients.set i ⟨(slot s i).fd, b⟩ } := by
  by_cases hi : i < s.clients.length
  · obtain ⟨h1, h2, h3, h4, h5⟩ := h
    refine ⟨?_, ?_, h3, ?_, h5⟩
    · intro j hj
      simp only [List.length_set] at hj
      simp only [slot] at hj ⊢
      by_cases hij : i = j
      · subst hij
        rw [getD_set_self _ _ _ _ hi]
        exact h1 i hi
      · rw [getD_set_ne _ _ _ _ _ hij]
        exact h1 j hj
    · intro j hj
      simp only [List.length_set] at hj
      simp only [slot] at hj ⊢
      by_cases hij : i = j
      · subst hij
        rw [getD_set_self _ _ _ _ hi]
        intro hm
        exact hp hm
      · rw [getD_set_ne _ _ _ _ _ hij]
        exact h2 j hj
    · intro j k hj hk hjk hj0
      simp only [List.length_set] at hj hk
      simp only [slot] at hj0 ⊢
      by_cases hij : i = j
      · subst hij
        rw [getD_set_self _ _ _ _ hi] at hj0 ⊢
        by_cases hik : i = k
        · exact absurd hik hjk
        · rw [getD_set_ne _ _ _ _ _ hik]
          exact h4 i k hi hk hjk hj0
      · rw [getD_set_ne _ _ _ _ _ hij] at hj0 ⊢
        by_cases hik : i = k
        · subst hik
          rw [getD_set_self _ _ _ _ hi]
          exact h4 j i hj hi hjk hj0
        · rw [getD_set_ne _ _ _ _ _ hik]
          exact h4 j k hj hk hjk hj0
  · have hset : s.clients.set i ⟨(slot s i).fd, b⟩ = s.clients :=
      List.set_eq_of_length_le (by omega)
    rw [hset]
    exact h

theorem serverInv_write (s : ServerState) (i : Nat) (os : List SendRes)
    (h : ServerInv s) : ServerInv (handle_client_write s i os) := by
  have hne : (write_buffer_flush (slot s i).write_buf os).2.2 ≠ 0 →
      wb_pending (write_buffer_flush (slot s i).write_buf os).1 ≠ [] := by
    intro hr
    obtain ⟨_, _, h3f, _⟩ := write_buffer_flush_spec os (slot s i).write_buf
    exact wb_pending_ne_nil _ (h3f hr).2.2
  rcases (write_buffer_flush_spec os (slot s i).write_buf).1 with hr | hr | hr
  · have he : handle_client_write s i os =
        { s with
          clients :=
            s.clients.set i ⟨(slot s i).fd, (write_buffer_flush (slot s i).write_buf os).1⟩
          master_write_set := s.master_write_set.erase (slot s i).fd } := by
      simp [handle_client_write, hr]
    rw [he]
    exact serverInv_set_buf { s with master_write_set := s.master_write_set.erase (slot s i).fd }
      i _ (serverInv_erase_mws s _ h)
      (fun hm => absurd hm (Finset.not_mem_erase _ _))
  · have he : handle_client_write s i os =
        { s with
          clients :=
            s.clients.set i ⟨(slot s i).fd, (write_buffer_flush (slot s i).write_buf os).1⟩ } := by
      simp [handle_client_write, hr]
    rw [he]
    exact serverInv_set_buf s i _ h (fun _ => hne (by rw [hr]; decide))
  · have he : handle_client_write s i os =
        close_client
          { s with
            clients :=
              s.clients.set i
                ⟨(slot s i).fd, (write_buffer_flush (slot s i).write_buf os).1⟩ } i := by
      simp [handle_client_write, hr]
    rw [he]
    exact serverInv_close _ i (serverInv_set_buf s i _ h (fun _ => hne (by rw [hr]; decide)))

theorem serverInv_accept (s : ServerState) (ro : List AcceptRes)
    (hf : FreshEv s (SEv.acceptEv ro)) (h : ServerInv s) :
    ServerInv (handle_new_connection s ro).1 := by
  match ro with
  | [] => exact h
  | AcceptRes.wouldblock :: rest => exact h
  | AcceptRes.err :: rest => exact h
  | AcceptRes.ok fd false :: rest => exact ⟨h.1, h.2.1, h.2.2.1, h.2.2.2.1, h.2.2.2.2⟩
  | AcceptRes.ok fd true :: rest =>
    obtain ⟨hpos, hmrs, hmws⟩ := hf
    rw [handle_new_connection_ok]
    cases hfs : findFreeSlot s.clients 0 with
    | none =>
      rw [Finset.erase_insert hmrs]
      exact ⟨h.1, h.2.1, h.2.2.1, h.2.2.2.1, h.2.2.2.2⟩
    | some i =>
      obtain ⟨h1, h2, h3, h4, h5⟩ := h
      obtain ⟨_, hilen, _, _⟩ := findFreeSlot_spec s.clients 0 i hfs
      have hi : i < s.clients.length := by simpa using hilen
      refine ⟨?_, ?_, ?_, ?_, ?_⟩
      · intro j hj
        simp only [List.length_set] at hj
        simp only [slot] at hj ⊢
        by_cases hij : i = j
        · subst hij
          rw [getD_set_self _ _ _ _ hi]
          exact iff_of_true hpos (Finset.mem_insert_self _ _)
        · rw [getD_set_ne _ _ _ _ _ hij]
          constructor
          · intro hj0
            exact Finset.mem_insert_of_mem ((h1 j hj).mp hj0)
          · intro hm
            rcases Finset.mem_insert.mp hm with he2 | hm2
            · rw [he2]; exact hpos
            · exact (h1 j hj).mpr hm2
      · intro j hj
        simp only [List.length_set] at hj
        simp only [slot] at hj ⊢
        by_cases hij : i = j
        · subst hij
          rw [getD_set_self _ _ _ _ hi]
          intro hm
          exact absurd hm hmws
        · rw [getD_set_ne _ _ _ _ _ hij]
          exact h2 j hj
      · intro x hx
        rcases Finset.mem_insert.mp hx with he2 | hm2
        · rw [he2]; exact hpos
        · exact h3 x hm2
      · intro j k hj hk hjk hj0
        simp only [List.length_set] at hj hk
        simp only [slot] at hj0 ⊢
        by_cases hij : i = j
        · subst hij
          rw [getD_set_self _ _ _ _ hi] at hj0 ⊢
          by_cases hik : i = k
          · exact absurd hik hjk
          · rw [getD_set_ne _ _ _ _ _ hik]
            intro hc
            by_cases h0k : 0 ≤ (s.clients.getD k emptyClient).fd
            · have : (s.clients.getD k emptyClient).fd ∈ s.master_read_set :=
                (h1 k hk).mp h0k
              rw [← hc] at this
              exact hmrs this
            · simp only at hc
              omega
        · rw [getD_set_ne _ _ _ _ _ hij] at hj0 ⊢
          by_cases hik : i = k
          · subst hik
            rw [getD_set_self _ _ _ _ hi]
            intro hc
            have : (s.clients.getD j emptyClient).fd ∈ s.master_read_set :=
              (h1 j hj).mp hj0
            simp only at hc
            rw [hc] at this
            exact hmrs this
          · rw [getD_set_ne _ _ _ _ _ hik]
            exact h4 j k hj hk hjk hj0
      · intro x hx
        exact Finset.mem_insert_of_mem (h5 hx)

/-- C5: every invariant-preserving step — accept (with a kernel-fresh fd),
read handler, write handler, close — maintains the two claimed invariants:
a slot is occupied iff its fd carries read-interest, and write-interest on a
slot's fd implies its write buffer holds unsent bytes (which subsumes the
claim's weaker disjunct about the most recent write-handler return). -/
theorem server_inv_spec (s : ServerState) (e : SEv) (hf : FreshEv s e)
    (h : ServerInv s) :
    ServerInv (sstep s e) ∧ slotReadInv (sstep s e) ∧ slotWriteInv (sstep s e) := by
  have hs : ServerInv (sstep s e) := by
    cases e with
    | acceptEv ro => exact serverInv_accept s ro hf h
    | readEv i ro =>
      by_cases hfd : (slot s i).fd < 0
      · simpa [sstep, hfd] using h
      · have hr := serverInv_read s i ro hfd h
        simpa [sstep, hfd] using hr
    | writeEv i os =>
      by_cases hfd : (slot s i).fd < 0
      · simpa [sstep, hfd] using h
      · have hw := serverInv_write s i os h
        simpa [sstep, hfd] using hw
    | closeEv i => exact serverInv_close s i h
  exact ⟨hs, hs.1, hs.2.1⟩

/-- Witness for C5: a read of one byte on the sample state's slot 0 keeps
both invariants. -/
theorem server_inv_spec_w :
    ServerInv (sstep sampleServer (SEv.readEv 0 [RecvRes.bytes [4]])) ∧
    slotReadInv (sstep sampleServer (SEv.readEv 0 [RecvRes.bytes [4]])) ∧
    slotWriteInv (sstep sampleServer (SEv.readEv 0 [RecvRes.bytes [4]])) :=
  server_inv_spec sampleServer (SEv.readEv 0 [RecvRes.bytes [4]]) trivial
    (by
      refine ⟨?_, ?_, by decide, ?_, by decide⟩
      · intro i hi
        have h2 : i < 2 := hi
        interval_cases i <;> decide
      · intro i hi
        have h2 : i < 2 := hi
        interval_cases i <;> decide
      · intro i j hi hj hij hi0
        have h2 : i < 2 := hi
        have h3 : j < 2 := hj
        interval_cases i <;> interval_cases j <;>
          first
          | exact absurd rfl hij
          | decide)

theorem echo_step_closed (s : EchoState) (e : EchoEv) (h : s.connOpen = false) :
    echo_step s e = (s, [], []) := by
  simp [echo_step, h]

theorem echo_run_closed : ∀ (evs : List EchoEv) (s : EchoState),
    s.connOpen = false → echo_run s evs = (s, [], []) := by
  intro evs
  induction evs with
  | nil => intro s h; rfl
  | cons e rest ih =>
    intro s h
    simp [echo_run, echo_step_closed s e h, ih s h]

theorem echo_step_stream (s : EchoState) (e : EchoEv) (h : s.connOpen = true) :
    ((echo_step s e).2.2 <+: wb_pending s.buf ++ (echo_step s e).2.1) ∧
    ((echo_step s e).1.connOpen = true →
      (echo_step s e).2.2 ++ wb_pending (echo_step s e).1.buf =
        wb_pending s.buf ++ (echo_step s e).2.1) := by
  have hno : ¬(s.connOpen = false) := by rw [h]; decide
  cases e with
  | rd chunk =>
    by_cases hc : chunk.length = 0
    · simp [echo_step, hno, hc]
    · cases hb : write_buffer_append s.buf chunk with
      | none => simp [echo_step, hno, hc, hb]
      | some b =>
        have hp := (write_buffer_append_some _ _ _ hb).1
        simp [echo_step, hno, hc, hb, hp]
  | wr os =>
    have h4 := (write_buffer_flush_spec os s.buf).2.2.2
    by_cases hr : (write_buffer_flush s.buf os).2.2 = -1
    · have he : echo_step s (EchoEv.wr os) =
          (⟨false, init_write_buffer⟩, [], (write_buffer_flush s.buf os).2.1) := by
        simp [echo_step, h, hr]
      rw [he]
      constructor
      · exact ⟨wb_pending (write_buffer_flush s.buf os).1, by
          rw [List.append_nil]; exact h4⟩
      · intro hopen
        simp at hopen
    · have he : echo_step s (EchoEv.wr os) =
          (⟨true, (write_buffer_flush s.buf os).1⟩, [], (write_buffer_flush s.buf os).2.1) := by
        simp [echo_step, h, hr]
      rw [he]
      constructor
      · exact ⟨wb_pending (write_buffer_flush s.buf os).1, by
          rw [List.append_nil]; exact h4⟩
      · intro _
        rw [List.append_nil]
        exact h4

theorem echo_run_stream : ∀ (evs : List EchoEv) (s : EchoState),
    s.connOpen = true →
    ((echo_run s evs).2.2 <+: wb_pending s.buf ++ (echo_run s evs).2.1) ∧
    ((echo_run s evs).1.connOpen = true →
      (echo_run s evs).2.2 ++ wb_pending (echo_run s evs).1.buf =
        wb_pending s.buf ++ (echo_run s evs).2.1) := by
  intro evs
  induction evs with
  | nil =>
    intro s h
    exact ⟨⟨wb_pending s.buf, by simp [echo_run]⟩, by simp [echo_run]⟩
  | cons e rest ih =>
    intro s h
    obtain ⟨hstep_pre, hstep_eq⟩ := echo_step_stream s e h
    cases h1 : (echo_step s e).1.connOpen with
    | true =>
      obtain ⟨hrun_pre, hrun_eq⟩ := ih (echo_step s e).1 h1
      have heq := hstep_eq h1
      constructor
      · obtain ⟨r, hr⟩ := hrun_pre
        refine ⟨r, ?_⟩
        show ((echo_step s e).2.2 ++ (echo_run (echo_step s e).1 rest).2.2) ++ r =
          wb_pending s.buf ++ ((echo_step s e).2.1 ++ (echo_run (echo_step s e).1 rest).2.1)
        rw [List.append_assoc, hr, ← List.append_assoc, heq, List.append_assoc]
      · intro hopen
        have h2 : (echo_run (echo_step s e).1 rest).1.connOpen = true := by
          simpa [echo_run] using hopen
        have heq2 := hrun_eq h2
        show ((echo_step s e).2.2 ++ (echo_run (echo_step s e).1 rest).2.2) ++
            wb_pending (echo_run (echo_step s e).1 rest).1.buf =
          wb_pending s.buf ++ ((echo_step s e).2.1 ++ (echo_run (echo_step s e).1 rest).2.1)
        rw [List.append_assoc, heq2, ← List.append_assoc, heq, List.append_assoc]
    | false =>
      have hrc := echo_run_closed rest (echo_step s e).1 h1
      constructor
      · show ((echo_step s e).2.2 ++ (echo_run (echo_step s e).1 rest).2.2) <+:
          wb_pending s.buf ++ ((echo_step s e).2.1 ++ (echo_run (echo_step s e).1 rest).2.1)
        rw [hrc]
        simpa using hstep_pre
      · intro hopen
        have h2 : (echo_run (echo_step s e).1 rest).1.connOpen = true := by
          simpa [echo_run] using hopen
        rw [hrc] at h2
        rw [h1] at h2
        simp at h2

theorem flush_no_err : ∀ (os : List SendRes),
    os.all (fun o => match o with | SendRes.err => false | _ => true) = true →
    ∀ buf : WriteBuffer, (write_buffer_flush buf os).2.2 ≠ -1 := by
  intro os
  induction os with
  | nil =>
    intro _ buf
    by_cases h : buf.offset < buf.data.length <;> simp [write_buffer_flush, h]
  | cons o rest ih =>
    intro hall buf
    have hrest : rest.all (fun o => match o with | SendRes.err => false | _ => true) = true :=
      (List.all_cons .. ▸ hall |> Bool.and_elim_right)
    by_cases h : buf.offset < buf.data.length
    · cases o with
      | err =>
        exfalso
        have := (List.all_cons .. ▸ hall |> Bool.and_elim_left)
        simp at this
      | wouldblock => simp [write_buffer_flush, h]
      | ok n =>
        simp only [write_buffer_flush, if_pos h]
        exact ih hrest _
    · simp [write_buffer_flush, h]

theorem flush_drain (buf : WriteBuffer) (ho : buf.offset ≤ buf.data.length)
    (hlen : buf.data.length ≤ MAX_PENDING_WRITES) :
    write_buffer_flush buf [SendRes.ok MAX_PENDING_WRITES] =
      (init_write_buffer, wb_pending buf, 0) := by
  by_cases h : buf.offset < buf.data.length
  · have hk : min MAX_PENDING_WRITES (buf.data.length - buf.offset) =
        buf.data.length - buf.offset := min_eq_right (by omega)
    have hoff : buf.offset + (buf.data.length - buf.offset) = buf.data.length := by omega
    have hinner : write_buffer_flush ⟨buf.data, buf.data.length⟩ [] =
        (init_write_buffer, [], 0) := by
      simp [write_buffer_flush]
    have hsent : (buf.data.drop buf.offset).take (buf.data.length - buf.offset) =
        buf.data.drop buf.offset := by
      apply List.take_of_length_le
      simp
    simp only [write_buffer_flush, if_pos h, hk, hoff, hinner, hsent]
    simp [wb_pending]
  · have hpend : wb_pending buf = [] := by
      simp only [wb_pending, List.drop_eq_nil_iff]
      omega
    simp [write_buffer_flush, h, hpend]

theorem echo_run_append : ∀ (l1 l2 : List EchoEv) (s : EchoState),
    echo_run s (l1 ++ l2) =
      ((echo_run (echo_run s l1).1 l2).1,
       (echo_run s l1).2.1 ++ (echo_run (echo_run s l1).1 l2).2.1,
       (echo_run s l1).2.2 ++ (echo_run (echo_run s l1).1 l2).2.2) := by
  intro l1
  induction l1 with
  | nil => intro l2 s; simp [echo_run]
  | cons e rest ih =>
    intro l2 s
    show (let o1 := echo_step s e
          let o2 := echo_run o1.1 (rest ++ l2)
          (o2.1, o1.2.1 ++ o2.2.1, o1.2.2 ++ o2.2.2)) = _
    simp only [ih]
    simp [echo_run, List.append_assoc]

theorem echo_run_ok : ∀ (evs : List EchoEv) (s : EchoState),
    s.connOpen = true →
    evs.all evOk = true →
    s.buf.offset ≤ s.buf.data.length →
    s.buf.data.length + totalRd evs ≤ MAX_PENDING_WRITES →
    (echo_run s evs).1.connOpen = true ∧
    (echo_run s evs).2.1 = rdConcat evs ∧
    (echo_run s evs).1.buf.data.length ≤ s.buf.data.length + totalRd evs ∧
    (echo_run s evs).1.buf.offset ≤ (echo_run s evs).1.buf.data.length := by
  intro evs
  induction evs with
  | nil =>
    intro s h _ hwf _
    exact ⟨h, rfl, by simp [echo_run, totalRd], hwf⟩
  | cons e rest ih =>
    intro s h hall hwf hcap
    have hallr : rest.all evOk = true :=
      (List.all_cons .. ▸ hall |> Bool.and_elim_right)
    have hok : evOk e = true :=
      (List.all_cons .. ▸ hall |> Bool.and_elim_left)
    cases e with
    | rd chunk =>
      have hc : ¬(chunk.length = 0) := by
        simp only [evOk, Bool.not_eq_true'] at hok
        simp only [List.length_eq_zero]
        intro hnil
        rw [hnil] at hok
        simp at hok
      have htot : totalRd (EchoEv.rd chunk :: rest) = chunk.length + totalRd rest := rfl
      cases hb : write_buffer_append s.buf chunk with
      | none =>
        exfalso
        have := (write_buffer_append_none_iff s.buf chunk).mp hb
        rw [htot] at hcap
        omega
      | some b =>
        obtain ⟨hp, hlen, hmax, hwfb⟩ := write_buffer_append_some _ _ _ hb
        have he : echo_step s (EchoEv.rd chunk) = (⟨true, b⟩, chunk, []) := by
          simp [echo_step, h, hc, hb]
        have hrun : echo_run s (EchoEv.rd chunk :: rest) =
            ((echo_run ⟨true, b⟩ rest).1, chunk ++ (echo_run ⟨true, b⟩ rest).2.1,
             [] ++ (echo_run ⟨true, b⟩ rest).2.2) := by
          simp [echo_run, he]
        rw [htot] at hcap
        obtain ⟨ho, hd, hl, hw⟩ := ih ⟨true, b⟩ rfl hallr hwfb (by dsimp only; omega)
        rw [hrun]
        refine ⟨ho, ?_, ?_, hw⟩
        · show chunk ++ (echo_run ⟨true, b⟩ rest).2.1 = rdConcat (EchoEv.rd chunk :: rest)
          rw [hd]
          rfl
        · rw [htot]
          dsimp only
          dsimp only at hl
          omega
    | wr os =>
      have hnoerr : os.all (fun o => match o with | SendRes.err => false | _ => true) = true := by
        simpa [evOk] using hok
      have hrne : (write_buffer_flush s.buf os).2.2 ≠ -1 := flush_no_err os hnoerr s.buf
      have he : echo_step s (EchoEv.wr os) =
          (⟨true, (write_buffer_flush s.buf os).1⟩, [], (write_buffer_flush s.buf os).2.1) := by
        simp [echo_step, h, hrne]
      have htot : totalRd (EchoEv.wr os :: rest) = totalRd rest := rfl
      have hbprop : (write_buffer_flush s.buf os).1.data.length ≤ s.buf.data.length ∧
          (write_buffer_flush s.buf os).1.offset ≤
            (write_buffer_flush s.buf os).1.data.length := by
        rcases (write_buffer_flush_spec os s.buf).1 with hr | hr | hr
        · rw [(write_buffer_flush_spec os s.buf).2.1 hr]
          simp [init_write_buffer]
        · obtain ⟨ha, _, hcpend⟩ := (write_buffer_flush_spec os s.buf).2.2.1
            (by rw [hr]; decide)
          rw [ha] at hcpend ⊢
          omega
        · exact absurd hr hrne
      have hrun : echo_run s (EchoEv.wr os :: rest) =
          ((echo_run ⟨true, (write_buffer_flush s.buf os).1⟩ rest).1,
           [] ++ (echo_run ⟨true, (write_buffer_flush s.buf os).1⟩ rest).2.1,
           (write_buffer_flush s.buf os).2.1 ++
             (echo_run ⟨true, (write_buffer_flush s.buf os).1⟩ rest).2.2) := by
        simp [echo_run, he]
      rw [htot] at hcap
      have hble := hbprop.1
      obtain ⟨ho, hd, hl, hw⟩ := ih ⟨true, (write_buffer_flush s.buf os).1⟩ rfl hallr
        hbprop.2 (by dsimp only; omega)
      rw [hrun]
      refine ⟨ho, ?_, ?_, hw⟩
      · show [] ++ (echo_run ⟨true, (write_buffer_flush s.buf os).1⟩ rest).2.1 =
          rdConcat (EchoEv.wr os :: rest)
        rw [List.nil_append, hd]
        rfl
      · rw [htot]
        dsimp only
        dsimp only at hl
        omega

/-- C2: over any sequence of read/write handler invocations on one slot, the
bytes transmitted by flushes are a prefix of the bytes delivered to the read
handler (in order); and when the delivered bytes `B` fit the in-flight
write-buffer capacity (no shutdown, no fatal send errno), a final unblocked
flush makes the transmitted stream exactly `B`. -/
theorem echo_fidelity (evs : List EchoEv)
    (hok : evs.all evOk = true)
    (hcap : totalRd evs ≤ MAX_PENDING_WRITES) :
    (∀ l : List EchoEv, (echo_run echoInit l).2.2 <+: (echo_run echoInit l).2.1) ∧
    (echo_run echoInit (evs ++ [EchoEv.wr [SendRes.ok MAX_PENDING_WRITES]])).2.1 =
      rdConcat evs ∧
    (echo_run echoInit (evs ++ [EchoEv.wr [SendRes.ok MAX_PENDING_WRITES]])).2.2 =
      rdConcat evs := by
  refine ⟨?_, ?_⟩
  · intro l
    have hp := (echo_run_stream l echoInit rfl).1
    simpa [echoInit, init_write_buffer, wb_pending] using hp
  · obtain ⟨ho, hd, hl, hw⟩ := echo_run_ok evs echoInit rfl hok (le_refl 0)
      (by simpa [echoInit, init_write_buffer] using hcap)
    have heq := (echo_run_stream evs echoInit rfl).2 ho
    have hlen : (echo_run echoInit evs).1.buf.data.length ≤ MAX_PENDING_WRITES := by
      have h0 : echoInit.buf.data.length = 0 := rfl
      rw [h0] at hl
      omega
    have hdrain := flush_drain (echo_run echoInit evs).1.buf hw hlen
    have hstep : echo_step (echo_run echoInit evs).1
        (EchoEv.wr [SendRes.ok MAX_PENDING_WRITES]) =
        (⟨true, init_write_buffer⟩, [], wb_pending (echo_run echoInit evs).1.buf) := by
      simp [echo_step, ho, hdrain]
    have hone : echo_run (echo_run echoInit evs).1 [EchoEv.wr [SendRes.ok MAX_PENDING_WRITES]] =
        (⟨true, init_write_buffer⟩, [], wb_pending (echo_run echoInit evs).1.buf) := by
      simp [echo_run, hstep]
    rw [echo_run_append evs [EchoEv.wr [SendRes.ok MAX_PENDING_WRITES]] echoInit, hone]
    constructor
    · dsimp only
      rw [List.append_nil]
      exact hd
    · dsimp only
      rw [heq]
      rw [hd]
      simp [echoInit, init_write_buffer, wb_pending]

/-- Witness for C2: the trace delivers chunks 12, 34 around a partial flush;
the final drain returns exactly the delivered bytes, in order. -/
theorem echo_fidelity_w :
    (∀ l : List EchoEv, (echo_run echoInit l).2.2 <+: (echo_run echoInit l).2.1) ∧
    (echo_run echoInit
        ([EchoEv.rd [1, 2], EchoEv.wr [SendRes.ok 1], EchoEv.rd [3, 4]] ++
          [EchoEv.wr [SendRes.ok MAX_PENDING_WRITES]])).2.1 =
      rdConcat [EchoEv.rd [1, 2], EchoEv.wr [SendRes.ok 1], EchoEv.rd [3, 4]] ∧
    (echo_run echoInit
        ([EchoEv.rd [1, 2], EchoEv.wr [SendRes.ok 1], EchoEv.rd [3, 4]] ++
          [EchoEv.wr [SendRes.ok MAX_PENDING_WRITES]])).2.2 =
      rdConcat [EchoEv.rd [1, 2], EchoEv.wr [SendRes.ok 1], EchoEv.rd [3, 4]] :=
  echo_fidelity [EchoEv.rd [1, 2], EchoEv.wr [SendRes.ok 1], EchoEv.rd [3, 4]]
    (by decide) (by decide)
